import Mathlib

/-!
Verification of the `gensenc` reflection-driven binary codec (src/main.go).

The embedding models Go `reflect.Value`s as the inductive type `Val`
(one constructor per kind the codec dispatches on) and decode targets as
`Ty` (the static type) together with a settability flag and the target's
current contents.  Byte streams are `List Nat` with entries below 256;
`encLen8`/`decLe8` model `binary.LittleEndian.PutUint64`/`Uint64`.

Notes on the translation:
  * `EncodeValue` takes an oracle `σ` permuting the per-pair byte chunks of a
    map; it models the unspecified iteration order of `reflect.Value.MapKeys`.
    Theorems that depend on a concrete order instantiate `σ := id` or assume
    `∀ l, List.Perm (σ l) l`.
  * Decode results are `Except (DErr × List Nat) (Val × List Nat)`: on
    success the new contents of the target plus the unconsumed tail, on
    failure the error together with what remains unconsumed of the stream
    (so "how many bytes were consumed before failing" is observable).
  * `DErr.panicLen` models a Go runtime panic, not a returned error:
    `make([]byte, length)` (line 95) panics when `length` exceeds the maximum
    slice length, and `v.Grow(int(length))`/`v.SetLen(int(length))`
    (lines 118-119) panic when `int(length)` is negative, i.e. whenever the
    8-byte field is `≥ 2^63` on a 64-bit platform.
  * `DErr.invalidType` models the error returned by `binary.Read` when handed
    a non-pointer value: `DecodeValue`'s default arm (lines 179-191) calls
    `binary.Read(r, binary.LittleEndian, v.Interface())`, and `v.Interface()`
    is a non-pointer copy, so for a fast-path fixed-width scalar such as
    `float64` the stdlib reads the value's width in bytes and then reports
    `binary.Read: invalid type ...` without writing to the target.
  * The decoder's `reflect.Pointer` arm and the pointer unwrapping done by
    callers are modelled by invoking `DecodeValue` directly on the pointee
    with `settable := true`; no claim mentions indirection values.
-/

namespace Gensenc

/-- Decode-side outcomes other than success: `ErrCantSet`, an end-of-stream
error from `io.ReadFull` (`io.EOF` or `io.ErrUnexpectedEOF`), the
`binary.Read` invalid-type error, and a runtime panic on an oversized
length field. -/
inductive DErr where
  | cantSet
  | eof
  | invalidType
  | panicLen

/-- Encode-side failure: an error returned by `binary.Write` in the default
arm (the in-memory `bytes.Buffer` writes themselves cannot fail). -/
inductive EErr where
  | binWrite

/-- The little-endian 8-byte encoding written by
`binary.LittleEndian.PutUint64` (byte i is `m >> (8*i) & 0xff`). -/
def encLen8 (m : Nat) : List Nat :=
  [m % 256, m / 256 % 256, m / 256 ^ 2 % 256, m / 256 ^ 3 % 256,
   m / 256 ^ 4 % 256, m / 256 ^ 5 % 256, m / 256 ^ 6 % 256, m / 256 ^ 7 % 256]

/-- The value read back by `binary.LittleEndian.Uint64` from an 8-byte
buffer. -/
def decLe8 (l : List Nat) : Nat :=
  l.getD 0 0 + l.getD 1 0 * 256 + l.getD 2 0 * 256 ^ 2 + l.getD 3 0 * 256 ^ 3 +
    l.getD 4 0 * 256 ^ 4 + l.getD 5 0 * 256 ^ 5 + l.getD 6 0 * 256 ^ 6 +
    l.getD 7 0 * 256 ^ 7

/-- Model of `io.ReadFull(r, buf)` with `len(buf) = n` over the remaining
stream `bs`: either the first `n` bytes plus the rest, or an end-of-stream
error after the reader has been drained. -/
def readFull (n : Nat) (bs : List Nat) :
    Except (DErr × List Nat) (List Nat × List Nat) :=
  if n ≤ bs.length then .ok (bs.take n, bs.drop n) else .error (.eof, [])

/-- Reinterpret `m < 2^w` as a `w`-bit two's-complement signed integer; this
is what storing the low `w` bits of a `uint64` into a `w`-bit signed field
yields. -/
def toSigned (w : Nat) (m : Nat) : Int :=
  if m < 2 ^ (w - 1) then (m : Int) else (m : Int) - 2 ^ w

/-- A runtime value, one constructor per `reflect.Kind` group the codec
dispatches on.  Strings are their byte lists; struct fields carry their
`CanInterface` flag (true iff the field is exported); integers carry their
native bit width; `vother` is a default-arm fixed-width scalar (e.g. a
`float64`), carrying its `CanInterface` flag and its raw little-endian
byte representation (`none` when `binary.Write` would reject the value). -/
inductive Val where
  | vstr (s : List Nat)
  | vstruct (fs : List (Bool × Val))
  | vslice (es : List Val)
  | varray (es : List Val)
  | vmap (ps : List (Val × Val))
  | vint (w : Nat) (n : Int)
  | vuint (w : Nat) (n : Nat)
  | vother (ci : Bool) (raw : Option (List Nat))

/-- The static type of a decode target.  `tint`/`tuint` carry the native bit
width; `tother` carries the byte width of a default-arm fixed-width scalar
that `encoding/binary`'s fast path recognises (such as `float64`, width 8). -/
inductive Ty where
  | tstr
  | tstruct (fs : List (Bool × Ty))
  | tslice (e : Ty)
  | tarray (n : Nat) (e : Ty)
  | tmap (kt : Ty) (vt : Ty)
  | tint (w : Nat)
  | tuint (w : Nat)
  | tother (w : Nat)

mutual

/-- Structural equality of values, used to model Go map key comparison in
`reflect.Value.SetMapIndex`. -/
def beqV : Val → Val → Bool
  | .vstr s, .vstr t => s == t
  | .vstruct fs, .vstruct gs => beqF fs gs
  | .vslice es, .vslice ds => beqL es ds
  | .varray es, .varray ds => beqL es ds
  | .vmap ps, .vmap qs => beqP ps qs
  | .vint w n, .vint w2 n2 => w == w2 && n == n2
  | .vuint w n, .vuint w2 n2 => w == w2 && n == n2
  | .vother ci r, .vother ci2 r2 => ci == ci2 && r == r2
  | _, _ => false
termination_by structural v _ => v

def beqF : List (Bool × Val) → List (Bool × Val) → Bool
  | [], [] => true
  | (b, v) :: fs, (b2, v2) :: gs => b == b2 && beqV v v2 && beqF fs gs
  | _, _ => false
termination_by structural l _ => l

def beqL : List Val → List Val → Bool
  | [], [] => true
  | v :: vs, v2 :: ws => beqV v v2 && beqL vs ws
  | _, _ => false
termination_by structural l _ => l

def beqP : List (Val × Val) → List (Val × Val) → Bool
  | [], [] => true
  | (k, v) :: ps, (k2, v2) :: qs => beqV k k2 && beqV v v2 && beqP ps qs
  | _, _ => false
termination_by structural l _ => l

end

mutual

/-- The Go zero value of a type (what a freshly constructed target holds). -/
def zeroVal : Ty → Val
  | .tstr => .vstr []
  | .tstruct ts => .vstruct (zeroFields ts)
  | .tslice _ => .vslice []
  | .tarray n e => .varray (List.replicate n (zeroVal e))
  | .tmap _ _ => .vmap []
  | .tint w => .vint w 0
  | .tuint w => .vuint w 0
  | .tother w => .vother true (some (List.replicate w 0))

def zeroFields : List (Bool × Ty) → List (Bool × Val)
  | [] => []
  | (ci, t) :: ts => (ci, zeroVal t) :: zeroFields ts

end

mutual

/-- Model of `EncodeValue` (src/main.go lines 13-81).  `σ` permutes the
per-pair byte chunks of a map, standing in for the unspecified iteration
order of `v.MapKeys()`; every other arm is order-deterministic. -/
def EncodeValue (σ : List (List Nat) → List (List Nat)) :
    Val → Except EErr (List Nat)
  | .vstr s => .ok (encLen8 s.length ++ s)
  | .vstruct fs => encFields σ fs
  | .vslice es =>
      match encList σ es with
      | .error e => .error e
      | .ok bs => .ok (encLen8 es.length ++ bs)
  | .varray es => encList σ es
  | .vmap ps =>
      match encPairs σ ps with
      | .error e => .error e
      | .ok cs => .ok (encLen8 ps.length ++ (σ cs).flatten)
  | .vint _ n => .ok (encLen8 (n % (2 : Int) ^ 64).toNat)
  | .vuint _ n => .ok (encLen8 n)
  | .vother ci raw =>
      if ci then
        match raw with
        | some bs => .ok bs
        | none => .error .binWrite
      else .ok []

/-- Struct arm of the encoder: fields in declaration order, skipping those
with `CanInterface() = false`. -/
def encFields (σ : List (List Nat) → List (List Nat)) :
    List (Bool × Val) → Except EErr (List Nat)
  | [] => .ok []
  | (ci, v) :: fs =>
      if ci then
        match EncodeValue σ v with
        | .error e => .error e
        | .ok b =>
          match encFields σ fs with
          | .error e => .error e
          | .ok rest => .ok (b ++ rest)
      else encFields σ fs

/-- Element loop shared by the slice and array arms of the encoder. -/
def encList (σ : List (List Nat) → List (List Nat)) :
    List Val → Except EErr (List Nat)
  | [] => .ok []
  | v :: vs =>
      match EncodeValue σ v with
      | .error e => .error e
      | .ok b =>
        match encList σ vs with
        | .error e => .error e
        | .ok rest => .ok (b ++ rest)

/-- Pair loop of the map arm: each pair contributes the key's encoding
followed by the value's encoding as one chunk; the chunk list is permuted
by `σ` at the call site. -/
def encPairs (σ : List (List Nat) → List (List Nat)) :
    List (Val × Val) → Except EErr (List (List Nat))
  | [] => .ok []
  | (k, v) :: ps =>
      match EncodeValue σ k with
      | .error e => .error e
      | .ok kb =>
        match EncodeValue σ v with
        | .error e => .error e
        | .ok vb =>
          match encPairs σ ps with
          | .error e => .error e
          | .ok rest => .ok ((kb ++ vb) :: rest)

end

/-- Insertion into the assoc-list model of a Go map: `SetMapIndex`
overwrites on key collision, otherwise adds the pair. -/
def insertKV : List (Val × Val) → Val → Val → List (Val × Val)
  | [], k, v => [(k, v)]
  | (k2, v2) :: ps, k, v =>
      if beqV k2 k then (k, v) :: ps else (k2, v2) :: insertKV ps k v

/-- Field list of a struct value (used to read the decode target's current
contents). -/
def fieldsOf : Val → List (Bool × Val)
  | .vstruct fs => fs
  | _ => []

/-- Element list of an array value. -/
def elemsOf : Val → List Val
  | .varray es => es
  | _ => []

/-- Element loop shared by the slice and array arms of the decoder, with the
element decoder abstracted: decode `n` elements in order, threading the
stream, reading the current contents off `curs`.  For a slice the current
elements are the zeroed backing store created by `Clear`/`Grow`/`SetLen`;
for an array they are the array's current elements. -/
def decLoop (f : Val → List Nat → Except (DErr × List Nat) (Val × List Nat))
    (dflt : Val) :
    Nat → List Val → List Nat →
    Except (DErr × List Nat) (List Val × List Nat)
  | 0, _, bs => .ok ([], bs)
  | n + 1, curs, bs =>
      match f (curs.headD dflt) bs with
      | .error er => .error er
      | .ok (v, bs1) =>
        match decLoop f dflt n curs.tail bs1 with
        | .error er => .error er
        | .ok (vs, rest) => .ok (v :: vs, rest)

/-- Pair loop of the map arm, with the key and value decoders abstracted:
each iteration decodes into fresh settable zero-valued holders made by
`reflect.New` and inserts the pair into the (cleared) target map. -/
def decPairLoop
    (fk fv : List Nat → Except (DErr × List Nat) (Val × List Nat)) :
    Nat → List (Val × Val) → List Nat →
    Except (DErr × List Nat) (List (Val × Val) × List Nat)
  | 0, acc, bs => .ok (acc, bs)
  | n + 1, acc, bs =>
      match fk bs with
      | .error e => .error e
      | .ok (k, bs1) =>
        match fv bs1 with
        | .error e => .error e
        | .ok (v, bs2) => decPairLoop fk fv n (insertKV acc k v) bs2

mutual

/-- Model of `DecodeValue` (src/main.go lines 83-193) over the remaining
stream `bs`.  `settable` is `v.CanSet()` of the target and `cur` its current
contents (which decoding a struct leaves in place for skipped fields). -/
def DecodeValue : Ty → Bool → Val → List Nat →
    Except (DErr × List Nat) (Val × List Nat)
  | .tstr, settable, _, bs =>
      if !settable then .error (.cantSet, bs) else
      match readFull 8 bs with
      | .error e => .error e
      | .ok (l, bs1) =>
        if 2 ^ 63 ≤ decLe8 l then .error (.panicLen, bs1) else
        match readFull (decLe8 l) bs1 with
        | .error e => .error e
        | .ok (sb, bs2) => .ok (.vstr sb, bs2)
  | .tstruct ts, settable, cur, bs =>
      match decFields ts settable (fieldsOf cur) bs with
      | .error e => .error e
      | .ok (fs, rest) => .ok (.vstruct fs, rest)
  | .tslice e, _, _, bs =>
      match readFull 8 bs with
      | .error er => .error er
      | .ok (l, bs1) =>
        if 2 ^ 63 ≤ decLe8 l then .error (.panicLen, bs1) else
        match decLoop (fun c b => DecodeValue e true c b) (zeroVal e) (decLe8 l) [] bs1 with
        | .error er => .error er
        | .ok (es, rest) => .ok (.vslice es, rest)
  | .tarray n e, settable, cur, bs =>
      match decLoop (fun c b => DecodeValue e settable c b) (zeroVal e) n (elemsOf cur) bs with
      | .error er => .error er
      | .ok (es, rest) => .ok (.varray es, rest)
  | .tmap kt vt, _, _, bs =>
      match readFull 8 bs with
      | .error e => .error e
      | .ok (l, bs1) =>
        match decPairLoop (fun b => DecodeValue kt true (zeroVal kt) b)
            (fun b => DecodeValue vt true (zeroVal vt) b) (decLe8 l) [] bs1 with
        | .error e => .error e
        | .ok (ps, rest) => .ok (.vmap ps, rest)
  | .tint w, settable, _, bs =>
      if !settable then .error (.cantSet, bs) else
      match readFull 8 bs with
      | .error e => .error e
      | .ok (l, bs1) => .ok (.vint w (toSigned w (decLe8 l % 2 ^ w)), bs1)
  | .tuint w, settable, _, bs =>
      if !settable then .error (.cantSet, bs) else
      match readFull 8 bs with
      | .error e => .error e
      | .ok (l, bs1) => .ok (.vuint w (decLe8 l % 2 ^ w), bs1)
  | .tother w, settable, _, bs =>
      if !settable then .error (.cantSet, bs) else
      match readFull w bs with
      | .error e => .error e
      | .ok (_, bs1) => .error (.invalidType, bs1)

/-- Struct arm of the decoder: fields in declaration order; a field with
`CanInterface() = false` is skipped and keeps its current contents; an
exported field of a settable struct is itself settable. -/
def decFields : List (Bool × Ty) → Bool → List (Bool × Val) → List Nat →
    Except (DErr × List Nat) (List (Bool × Val) × List Nat)
  | [], _, _, bs => .ok ([], bs)
  | (ci, t) :: ts, settable, curs, bs =>
      if ci then
        match DecodeValue t settable ((curs.headD (ci, zeroVal t)).2) bs with
        | .error e => .error e
        | .ok (v, bs1) =>
          match decFields ts settable curs.tail bs1 with
          | .error e => .error e
          | .ok (fs, rest) => .ok ((ci, v) :: fs, rest)
      else
        match decFields ts settable curs.tail bs with
        | .error e => .error e
        | .ok (fs, rest) =>
            .ok ((ci, (curs.headD (ci, zeroVal t)).2) :: fs, rest)

end

/-- Model of the public `Encode` entry point (lines 195-198). -/
def Encode (σ : List (List Nat) → List (List Nat)) (v : Val) :
    Except EErr (List Nat) :=
  EncodeValue σ v

/-- Model of the public `Decode` entry point (lines 200-204): the byte
slice becomes the reader's stream; the target is described by its type,
settability and current contents. -/
def Decode (b : List Nat) (t : Ty) (settable : Bool) (cur : Val) :
    Except (DErr × List Nat) (Val × List Nat) :=
  DecodeValue t settable cur b

mutual

/-- Well-typedness of a value against a target type (same kind, matching
field flags, homogeneous elements, matching integer widths).  This is what
"value of shape S" means: in Go it holds by construction for any
`reflect.Value` of the corresponding static type. -/
def hasTy : Val → Ty → Bool
  | .vstr _, .tstr => true
  | .vstruct fs, .tstruct ts => hasTyF fs ts
  | .vslice es, .tslice e => hasTyL es e
  | .varray es, .tarray n e => es.length == n && hasTyL es e
  | .vmap ps, .tmap kt vt => hasTyP ps kt vt
  | .vint w _, .tint w2 => w == w2
  | .vuint w _, .tuint w2 => w == w2
  | .vother ci raw, .tother w =>
      ci && (match raw with
             | some bs => bs.length == w
             | none => false)
  | _, _ => false
termination_by structural v _ => v

def hasTyF : List (Bool × Val) → List (Bool × Ty) → Bool
  | [], [] => true
  | (ci, v) :: fs, (ci2, t) :: ts => ci == ci2 && hasTy v t && hasTyF fs ts
  | _, _ => false
termination_by structural l _ => l

def hasTyL : List Val → Ty → Bool
  | [], _ => true
  | v :: vs, e => hasTy v e && hasTyL vs e
termination_by structural l _ => l

def hasTyP : List (Val × Val) → Ty → Ty → Bool
  | [], _, _ => true
  | (k, v) :: ps, kt, vt => hasTy k kt && hasTy v vt && hasTyP ps kt vt
termination_by structural l _ _ => l

end

/-- The key `k` is distinct (as a map key) from every key of the list. -/
def keyNotInRest (k : Val) : List (Val × Val) → Bool
  | [] => true
  | (k2, _) :: ps => !beqV k k2 && keyNotInRest k ps

mutual

/-- Invariants Go guarantees for any real value of the modelled kinds:
string and collection lengths fit in a non-negative `int`, integers lie in
their native width's range, widths are the native 8/16/32/64 bits, and map
keys are pairwise distinct. -/
def wfV : Val → Bool
  | .vstr s => decide (s.length < 2 ^ 63) && s.all (fun b => b < 256)
  | .vstruct fs => wfF fs
  | .vslice es => decide (es.length < 2 ^ 63) && wfL es
  | .varray es => wfL es
  | .vmap ps => decide (ps.length < 2 ^ 63) && wfP ps
  | .vint w n =>
      (w == 8 || w == 16 || w == 32 || w == 64) &&
        decide (-(2 ^ (w - 1) : Int) ≤ n) && decide (n < (2 ^ (w - 1) : Int))
  | .vuint w n =>
      (w == 8 || w == 16 || w == 32 || w == 64) && decide (n < 2 ^ w)
  | .vother _ _ => true

def wfF : List (Bool × Val) → Bool
  | [] => true
  | (_, v) :: fs => wfV v && wfF fs

def wfL : List Val → Bool
  | [] => true
  | v :: vs => wfV v && wfL vs

def wfP : List (Val × Val) → Bool
  | [] => true
  | (k, v) :: ps => keyNotInRest k ps && wfV k && wfV v && wfP ps

end

mutual

/-- The value contains no default-arm (`Other`) node anywhere: it is built
exclusively from the string, struct, slice, array, map and integer kinds. -/
def noOther : Val → Bool
  | .vstr _ => true
  | .vstruct fs => noOtherF fs
  | .vslice es => noOtherL es
  | .varray es => noOtherL es
  | .vmap ps => noOtherP ps
  | .vint _ _ => true
  | .vuint _ _ => true
  | .vother _ _ => false

def noOtherF : List (Bool × Val) → Bool
  | [] => true
  | (_, v) :: fs => noOther v && noOtherF fs

def noOtherL : List Val → Bool
  | [] => true
  | v :: vs => noOther v && noOtherL vs

def noOtherP : List (Val × Val) → Bool
  | [] => true
  | (k, v) :: ps => noOther k && noOther v && noOtherP ps

end

mutual

/-- The value contains no mapping node anywhere. -/
def noMapping : Val → Bool
  | .vstr _ => true
  | .vstruct fs => noMappingF fs
  | .vslice es => noMappingL es
  | .varray es => noMappingL es
  | .vmap _ => false
  | .vint _ _ => true
  | .vuint _ _ => true
  | .vother _ _ => true

def noMappingF : List (Bool × Val) → Bool
  | [] => true
  | (_, v) :: fs => noMapping v && noMappingF fs

def noMappingL : List Val → Bool
  | [] => true
  | v :: vs => noMapping v && noMappingL vs

end

mutual

/-- Every leaf of the value is introspectable: no struct field anywhere has
`CanInterface() = false`. -/
def allIntrosp : Val → Bool
  | .vstr _ => true
  | .vstruct fs => allIntrospF fs
  | .vslice es => allIntrospL es
  | .varray es => allIntrospL es
  | .vmap ps => allIntrospP ps
  | .vint _ _ => true
  | .vuint _ _ => true
  | .vother ci _ => ci

def allIntrospF : List (Bool × Val) → Bool
  | [] => true
  | (ci, v) :: fs => ci && allIntrosp v && allIntrospF fs

def allIntrospL : List Val → Bool
  | [] => true
  | v :: vs => allIntrosp v && allIntrospL vs

def allIntrospP : List (Val × Val) → Bool
  | [] => true
  | (k, v) :: ps => allIntrosp k && allIntrosp v && allIntrospP ps

end

/-- The key `k` collides with no key already in the accumulated map. -/
def freshInAcc : List (Val × Val) → Val → Bool
  | [], _ => true
  | (k2, _) :: acc, k => !beqV k2 k && freshInAcc acc k

/-- Every key of the first list is distinct from every key of the second. -/
def disjKeys : List (Val × Val) → List (Val × Val) → Bool
  | [], _ => true
  | (k, _) :: acc, ps => keyNotInRest k ps && disjKeys acc ps

/-- Prepend a field to a struct value (identity on other kinds). -/
def consF (p : Bool × Val) : Val → Val
  | .vstruct fs => .vstruct (p :: fs)
  | v => v

def c1Val : Val :=
  .vstruct [(true, .vstr [104, 105]),
            (true, .vint 32 (-1)),
            (true, .vslice [.vuint 8 7, .vuint 8 200]),
            (true, .vmap [(.vstr [107], .vint 64 1), (.vstr [106], .vint 64 2)]),
            (true, .varray [.vint 16 300, .vint 16 (-4)])]

def c1Ty : Ty :=
  .tstruct [(true, .tstr), (true, .tint 32), (true, .tslice (.tuint 8)),
            (true, .tmap .tstr (.tint 64)), (true, .tarray 2 (.tint 16))]

def c9Val : Val :=
  .vstruct [(true, .vstr [97]), (true, .vslice [.vint 32 5]),
            (false, .vuint 16 9), (true, .varray [.vother true (some [1])])]

def c10Val : Val :=
  .vstruct [(true, .vstr [97]), (false, .vint 64 9),
            (true, .vmap [(.vuint 8 1, .vslice [.varray [.vint 8 2]])])]

/-- The unconsumed remainder a decode outcome reports, on success or
failure. -/
def restOf {α : Type} : Except (DErr × List Nat) (α × List Nat) → List Nat
  | .ok (_, r) => r
  | .error (_, r) => r

/-- A prefix-consuming decoder is well-behaved on its input: a successful
run splits the stream into consumed bytes plus the reported remainder, the
outcome depends only on the consumed bytes (any other tail is passed
through untouched), and every strictly shorter prefix of the consumed
bytes fails with the end-of-stream error after draining the reader. -/
def TruncSpec {α : Type}
    (g : List Nat → Except (DErr × List Nat) (α × List Nat)) : Prop :=
  ∀ bs a r, g bs = .ok (a, r) →
    ∃ c, bs = c ++ r ∧ (∀ zs, g (c ++ zs) = .ok (a, zs)) ∧
      ∀ m, m < c.length → g (c.take m) = .error (.eof, [])

/-- A decoder never reads out of bounds: whatever the input, the remainder
it reports (on success or failure) is a suffix of that input. -/
def SuffixSpec {α : Type}
    (g : List Nat → Except (DErr × List Nat) (α × List Nat)) : Prop :=
  ∀ bs, ∃ k, k ≤ bs.length ∧ restOf (g bs) = bs.drop k

theorem encLen8_length (m : Nat) : (encLen8 m).length = 8 := rfl

theorem decLe8_encLen8 (m : Nat) : decLe8 (encLen8 m) = m % 2 ^ 64 := by
  simp [decLe8, encLen8]
  omega

theorem readFull_append (n : Nat) (l rest : List Nat) (h : l.length = n) :
    readFull n (l ++ rest) = .ok (l, rest) := by
  subst h
  simp [readFull, List.take_left, List.drop_left]

theorem readFull_short (n : Nat) (bs : List Nat) (h : bs.length < n) :
    readFull n bs = .error (.eof, []) := by
  simp only [readFull, if_neg (by omega : ¬ n ≤ bs.length)]

theorem toSigned_round (w : Nat) (hw : w = 8 ∨ w = 16 ∨ w = 32 ∨ w = 64)
    (n : Int) (h1 : -(2 ^ (w - 1) : Int) ≤ n) (h2 : n < (2 ^ (w - 1) : Int)) :
    toSigned w ((n % (2 : Int) ^ 64).toNat % 2 ^ w) = n := by
  rcases hw with h | h | h | h <;> subst h <;>
    simp only [toSigned] <;> norm_num at h1 h2 ⊢ <;> split <;> omega

theorem uintMod_round (w : Nat) (hw : w = 8 ∨ w = 16 ∨ w = 32 ∨ w = 64)
    (m : Nat) (h : m < 2 ^ w) : m % 2 ^ 64 % 2 ^ w = m := by
  rcases hw with h2 | h2 | h2 | h2 <;> subst h2 <;> omega

theorem insertKV_fresh (acc : List (Val × Val)) (k v : Val)
    (h : freshInAcc acc k = true) : insertKV acc k v = acc ++ [(k, v)] := by
  induction acc with
  | nil => rfl
  | cons p acc ih =>
      obtain ⟨k2, v2⟩ := p
      simp only [freshInAcc, Bool.and_eq_true, Bool.not_eq_true'] at h
      simp only [insertKV, h.1, if_neg, List.cons_append, Bool.false_eq_true,
        ite_false]
      exact congrArg _ (ih h.2)

theorem disjKeys_fresh (acc ps : List (Val × Val)) (k v : Val)
    (h : disjKeys acc ((k, v) :: ps) = true) : freshInAcc acc k = true := by
  induction acc with
  | nil => rfl
  | cons p acc ih =>
      obtain ⟨k2, v2⟩ := p
      simp only [disjKeys, keyNotInRest, Bool.and_eq_true] at h
      simp only [freshInAcc, Bool.and_eq_true]
      exact ⟨h.1.1, ih h.2⟩

theorem disjKeys_tail (acc ps : List (Val × Val)) (k v : Val)
    (h : disjKeys acc ((k, v) :: ps) = true) : disjKeys acc ps = true := by
  induction acc with
  | nil => rfl
  | cons p acc ih =>
      obtain ⟨k2, v2⟩ := p
      simp only [disjKeys, keyNotInRest, Bool.and_eq_true] at h
      simp only [disjKeys, Bool.and_eq_true]
      exact ⟨h.1.2, ih h.2⟩

theorem disjKeys_snoc (acc ps : List (Val × Val)) (k v : Val)
    (h1 : disjKeys acc ps = true) (h2 : keyNotInRest k ps = true) :
    disjKeys (acc ++ [(k, v)]) ps = true := by
  induction acc with
  | nil => simpa [disjKeys] using h2
  | cons p acc ih =>
      obtain ⟨k2, v2⟩ := p
      simp only [disjKeys, Bool.and_eq_true] at h1
      simp only [List.cons_append, disjKeys, Bool.and_eq_true]
      exact ⟨h1.1, ih h1.2⟩

theorem dec_tstr (s rest : List Nat) (cur : Val) (h : s.length < 2 ^ 63) :
    DecodeValue .tstr true cur (encLen8 s.length ++ (s ++ rest)) =
      .ok (.vstr s, rest) := by
  simp only [DecodeValue, Bool.not_true, Bool.false_eq_true, if_false]
  rw [readFull_append 8 (encLen8 s.length) (s ++ rest) (encLen8_length _)]
  simp only [decLe8_encLen8, Nat.mod_eq_of_lt (show s.length < 2 ^ 64 by omega),
    if_neg (show ¬ 2 ^ 63 ≤ s.length by omega)]
  rw [readFull_append s.length s rest rfl]

theorem dec_tint (w : Nat) (hw : w = 8 ∨ w = 16 ∨ w = 32 ∨ w = 64)
    (n : Int) (h1 : -(2 ^ (w - 1) : Int) ≤ n) (h2 : n < (2 ^ (w - 1) : Int))
    (cur : Val) (rest : List Nat) :
    DecodeValue (.tint w) true cur
      (encLen8 (n % (2 : Int) ^ 64).toNat ++ rest) = .ok (.vint w n, rest) := by
  have hlt : (n % (2 : Int) ^ 64).toNat < 2 ^ 64 := by
    have ha := Int.emod_nonneg n (show ((2 : Int) ^ 64) ≠ 0 by positivity)
    have hb := Int.emod_lt_of_pos n (show (0 : Int) < 2 ^ 64 by positivity)
    omega
  simp only [DecodeValue, Bool.not_true, Bool.false_eq_true, if_false]
  rw [readFull_append 8 _ rest (encLen8_length _)]
  simp only [decLe8_encLen8, Nat.mod_eq_of_lt hlt, toSigned_round w hw n h1 h2]

theorem dec_tuint (w : Nat) (hw : w = 8 ∨ w = 16 ∨ w = 32 ∨ w = 64)
    (m : Nat) (h : m < 2 ^ w) (cur : Val) (rest : List Nat) :
    DecodeValue (.tuint w) true cur (encLen8 m ++ rest) =
      .ok (.vuint w m, rest) := by
  simp only [DecodeValue, Bool.not_true, Bool.false_eq_true, if_false]
  rw [readFull_append 8 _ rest (encLen8_length _)]
  simp only [decLe8_encLen8, uintMod_round w hw m h]

theorem dec_tstruct (ts : List (Bool × Ty)) (cur : Val) (bs : List Nat)
    (fs : List (Bool × Val)) (rest : List Nat)
    (h : decFields ts true (fieldsOf cur) bs = .ok (fs, rest)) :
    DecodeValue (.tstruct ts) true cur bs = .ok (.vstruct fs, rest) := by
  simp only [DecodeValue, h]

theorem dec_tslice (e : Ty) (L : Nat) (hL : L < 2 ^ 63)
    (body rest : List Nat) (es : List Val) (cur : Val)
    (h : decLoop (fun c b => DecodeValue e true c b) (zeroVal e) L []
          (body ++ rest) = .ok (es, rest)) :
    DecodeValue (.tslice e) true cur (encLen8 L ++ (body ++ rest)) =
      .ok (.vslice es, rest) := by
  simp only [DecodeValue]
  rw [readFull_append 8 (encLen8 L) (body ++ rest) (encLen8_length _)]
  simp only [decLe8_encLen8, Nat.mod_eq_of_lt (show L < 2 ^ 64 by omega),
    if_neg (show ¬ 2 ^ 63 ≤ L by omega), h]

theorem dec_tarray (n : Nat) (e : Ty) (cur : Val) (bs : List Nat)
    (es : List Val) (rest : List Nat)
    (h : decLoop (fun c b => DecodeValue e true c b) (zeroVal e) n
          (elemsOf cur) bs = .ok (es, rest)) :
    DecodeValue (.tarray n e) true cur bs = .ok (.varray es, rest) := by
  simp only [DecodeValue, h]

theorem dec_tmap (kt vt : Ty) (L : Nat) (hL : L < 2 ^ 64)
    (body rest : List Nat) (ps : List (Val × Val)) (cur : Val)
    (h : decPairLoop (fun b => DecodeValue kt true (zeroVal kt) b)
          (fun b => DecodeValue vt true (zeroVal vt) b) L []
          (body ++ rest) = .ok (ps, rest)) :
    DecodeValue (.tmap kt vt) true cur (encLen8 L ++ (body ++ rest)) =
      .ok (.vmap ps, rest) := by
  simp only [DecodeValue]
  rw [readFull_append 8 (encLen8 L) (body ++ rest) (encLen8_length _)]
  simp only [decLe8_encLen8, Nat.mod_eq_of_lt hL, h]

mutual

/-- Round-trip induction, value level: encoding a well-typed, well-formed,
all-introspectable value with no default-arm node succeeds, and decoding
the result (plus any trailing bytes) into a settable target of the same
type returns exactly the value, consuming exactly the encoding. -/
theorem rtV : ∀ (v : Val) (t : Ty),
    hasTy v t = true → wfV v = true → noOther v = true → allIntrosp v = true →
    ∃ bs, EncodeValue id v = .ok bs ∧
      ∀ rest cur, DecodeValue t true cur (bs ++ rest) = .ok (v, rest)
  | .vstr s => by
      intro t h1 h2 _ _
      cases t <;> simp only [hasTy, Bool.false_eq_true] at h1
      simp only [wfV, Bool.and_eq_true, decide_eq_true_eq] at h2
      exact ⟨encLen8 s.length ++ s, rfl, fun rest cur => by
        rw [List.append_assoc]
        exact dec_tstr s rest cur h2.1⟩
  | .vstruct fs => by
      intro t h1 h2 h3 h4
      cases t <;> simp only [hasTy, Bool.false_eq_true] at h1
      rename_i ts
      simp only [wfV] at h2
      simp only [noOther] at h3
      simp only [allIntrosp] at h4
      obtain ⟨bs, he, hd⟩ := rtF fs ts h1 h2 h3 h4
      exact ⟨bs, he, fun rest cur =>
        dec_tstruct ts cur (bs ++ rest) fs rest (hd rest (fieldsOf cur))⟩
  | .vslice es => by
      intro t h1 h2 h3 h4
      cases t <;> simp only [hasTy, Bool.false_eq_true] at h1
      rename_i e
      simp only [wfV, Bool.and_eq_true, decide_eq_true_eq] at h2
      simp only [noOther] at h3
      simp only [allIntrosp] at h4
      obtain ⟨bs, he, hd⟩ := rtL es e h1 h2.2 h3 h4
      refine ⟨encLen8 es.length ++ bs, ?_, ?_⟩
      · simp only [EncodeValue, he]
      · intro rest cur
        rw [List.append_assoc]
        exact dec_tslice e es.length h2.1 bs rest es cur (hd rest [])
  | .varray es => by
      intro t h1 h2 h3 h4
      cases t <;> simp only [hasTy, Bool.and_eq_true, beq_iff_eq,
        Bool.false_eq_true] at h1
      rename_i n e
      simp only [wfV] at h2
      simp only [noOther] at h3
      simp only [allIntrosp] at h4
      obtain ⟨bs, he, hd⟩ := rtL es e h1.2 h2 h3 h4
      refine ⟨bs, he, fun rest cur => ?_⟩
      refine dec_tarray n e cur (bs ++ rest) es rest ?_
      rw [← h1.1]
      exact hd rest (elemsOf cur)
  | .vmap ps => by
      intro t h1 h2 h3 h4
      cases t <;> simp only [hasTy, Bool.false_eq_true] at h1
      rename_i kt vt
      simp only [wfV, Bool.and_eq_true, decide_eq_true_eq] at h2
      simp only [noOther] at h3
      simp only [allIntrosp] at h4
      obtain ⟨cs, he, hd⟩ := rtP ps kt vt h1 h2.2 h3 h4
      refine ⟨encLen8 ps.length ++ cs.flatten, ?_, ?_⟩
      · simp only [EncodeValue, he, id]
      · intro rest cur
        rw [List.append_assoc]
        refine dec_tmap kt vt ps.length (by omega) cs.flatten rest ps cur ?_
        simpa using hd rest [] rfl
  | .vint w n => by
      intro t h1 h2 _ _
      cases t <;> simp only [hasTy, beq_iff_eq, Bool.false_eq_true] at h1
      subst h1
      simp only [wfV, Bool.and_eq_true, Bool.or_eq_true, beq_iff_eq,
        decide_eq_true_eq] at h2
      have hw : w = 8 ∨ w = 16 ∨ w = 32 ∨ w = 64 := by tauto
      exact ⟨encLen8 (n % (2 : Int) ^ 64).toNat, rfl, fun rest cur =>
        dec_tint w hw n h2.1.2 h2.2 cur rest⟩
  | .vuint w n => by
      intro t h1 h2 _ _
      cases t <;> simp only [hasTy, beq_iff_eq, Bool.false_eq_true] at h1
      subst h1
      simp only [wfV, Bool.and_eq_true, Bool.or_eq_true, beq_iff_eq,
        decide_eq_true_eq] at h2
      have hw : w = 8 ∨ w = 16 ∨ w = 32 ∨ w = 64 := by tauto
      exact ⟨encLen8 n, rfl, fun rest cur =>
        dec_tuint w hw n h2.2 cur rest⟩
  | .vother ci raw => by
      intro t _ _ h3 _
      simp only [noOther, Bool.false_eq_true] at h3

/-- Round-trip induction, struct-field level. -/
theorem rtF : ∀ (fs : List (Bool × Val)) (ts : List (Bool × Ty)),
    hasTyF fs ts = true → wfF fs = true → noOtherF fs = true →
    allIntrospF fs = true →
    ∃ bs, encFields id fs = .ok bs ∧
      ∀ rest curs, decFields ts true curs (bs ++ rest) = .ok (fs, rest)
  | [] => by
      intro ts h1 _ _ _
      cases ts with
      | nil => exact ⟨[], rfl, fun rest curs => rfl⟩
      | cons p ts =>
          obtain ⟨ci2, t2⟩ := p
          simp only [hasTyF, Bool.false_eq_true] at h1
  | (ci, u) :: fs => by
      intro ts h1 h2 h3 h4
      cases ts with
      | nil => simp only [hasTyF, Bool.false_eq_true] at h1
      | cons p ts =>
          obtain ⟨ci2, t2⟩ := p
          simp only [hasTyF, Bool.and_eq_true, beq_iff_eq] at h1
          simp only [wfF, Bool.and_eq_true] at h2
          simp only [noOtherF, Bool.and_eq_true] at h3
          simp only [allIntrospF, Bool.and_eq_true] at h4
          have hci := h1.1.1
          have hty := h1.1.2
          have hts := h1.2
          have hcit : ci = true := h4.1.1
          subst hcit
          subst hci
          obtain ⟨b1, e1, d1⟩ := rtV u t2 hty h2.1 h3.1 h4.1.2
          obtain ⟨b2, e2, d2⟩ := rtF fs ts hts h2.2 h3.2 h4.2
          refine ⟨b1 ++ b2, ?_, ?_⟩
          · simp only [encFields, if_true, e1, e2]
          · intro rest curs
            simp only [decFields, if_true, List.append_assoc, d1, d2]

/-- Round-trip induction, sequence-element level (slices and arrays). -/
theorem rtL : ∀ (es : List Val) (e : Ty),
    hasTyL es e = true → wfL es = true → noOtherL es = true →
    allIntrospL es = true →
    ∃ bs, encList id es = .ok bs ∧
      ∀ rest curs, decLoop (fun c b => DecodeValue e true c b) (zeroVal e)
        es.length curs (bs ++ rest) = .ok (es, rest)
  | [] => by
      intro e _ _ _ _
      exact ⟨[], rfl, fun rest curs => rfl⟩
  | u :: es => by
      intro e h1 h2 h3 h4
      simp only [hasTyL, Bool.and_eq_true] at h1
      simp only [wfL, Bool.and_eq_true] at h2
      simp only [noOtherL, Bool.and_eq_true] at h3
      simp only [allIntrospL, Bool.and_eq_true] at h4
      obtain ⟨b1, e1, d1⟩ := rtV u e h1.1 h2.1 h3.1 h4.1
      obtain ⟨b2, e2, d2⟩ := rtL es e h1.2 h2.2 h3.2 h4.2
      refine ⟨b1 ++ b2, ?_, ?_⟩
      · simp only [encList, e1, e2]
      · intro rest curs
        simp only [List.length_cons, decLoop, List.append_assoc, d1, d2]

/-- Round-trip induction, map-pair level: decoding the encoded pairs into
an accumulated map whose keys are disjoint from the encoded keys appends
the pairs in encoding order. -/
theorem rtP : ∀ (ps : List (Val × Val)) (kt vt : Ty),
    hasTyP ps kt vt = true → wfP ps = true → noOtherP ps = true →
    allIntrospP ps = true →
    ∃ cs, encPairs id ps = .ok cs ∧
      ∀ rest acc, disjKeys acc ps = true →
        decPairLoop (fun b => DecodeValue kt true (zeroVal kt) b)
          (fun b => DecodeValue vt true (zeroVal vt) b) ps.length acc
          (cs.flatten ++ rest) = .ok (acc ++ ps, rest)
  | [] => by
      intro kt vt _ _ _ _
      exact ⟨[], rfl, fun rest acc _ => by simp [decPairLoop]⟩
  | (k, v) :: ps => by
      intro kt vt h1 h2 h3 h4
      simp only [hasTyP, Bool.and_eq_true] at h1
      simp only [wfP, Bool.and_eq_true] at h2
      simp only [noOtherP, Bool.and_eq_true] at h3
      simp only [allIntrospP, Bool.and_eq_true] at h4
      obtain ⟨bk, ek, dk⟩ := rtV k kt h1.1.1 h2.1.1.2 h3.1.1 h4.1.1
      obtain ⟨bv, ev, dv⟩ := rtV v vt h1.1.2 h2.1.2 h3.1.2 h4.1.2
      obtain ⟨cs, ecs, dcs⟩ := rtP ps kt vt h1.2 h2.2 h3.2 h4.2
      refine ⟨(bk ++ bv) :: cs, ?_, ?_⟩
      · simp only [encPairs, ek, ev, ecs]
      · intro rest acc hdisj
        simp only [List.flatten_cons, List.length_cons, decPairLoop,
          List.append_assoc, dk, dv]
        rw [insertKV_fresh acc k v (disjKeys_fresh acc ps k v hdisj)]
        rw [dcs rest (acc ++ [(k, v)])
          (disjKeys_snoc acc ps k v (disjKeys_tail acc ps k v hdisj) h2.1.1.1)]
        simp

end

theorem encFields_filter (σ : List (List Nat) → List (List Nat)) :
    ∀ fs : List (Bool × Val),
      encFields σ fs = encFields σ (fs.filter (fun p => p.1))
  | [] => rfl
  | (ci, v) :: fs => by
      cases ci with
      | false =>
          simp only [encFields, List.filter_cons, Bool.false_eq_true,
            if_false, ite_false]
          exact encFields_filter σ fs
      | true =>
          simp only [encFields, List.filter_cons, if_true, ite_true]
          rw [encFields_filter σ fs]

mutual

/-- The encoder's output does not depend on the map-iteration oracle when
the value contains no mapping node. -/
theorem encNoMapV (σ1 σ2 : List (List Nat) → List (List Nat)) :
    ∀ v : Val, noMapping v = true → EncodeValue σ1 v = EncodeValue σ2 v
  | .vstr s => fun _ => rfl
  | .vstruct fs => fun h => by
      simp only [noMapping] at h
      simp only [EncodeValue]
      exact encNoMapF σ1 σ2 fs h
  | .vslice es => fun h => by
      simp only [noMapping] at h
      simp only [EncodeValue, encNoMapL σ1 σ2 es h]
  | .varray es => fun h => by
      simp only [noMapping] at h
      simp only [EncodeValue]
      exact encNoMapL σ1 σ2 es h
  | .vmap ps => fun h => by
      simp only [noMapping, Bool.false_eq_true] at h
  | .vint w n => fun _ => rfl
  | .vuint w n => fun _ => rfl
  | .vother ci raw => fun _ => rfl

theorem encNoMapF (σ1 σ2 : List (List Nat) → List (List Nat)) :
    ∀ fs : List (Bool × Val), noMappingF fs = true →
      encFields σ1 fs = encFields σ2 fs
  | [] => fun _ => rfl
  | (ci, v) :: fs => fun h => by
      simp only [noMappingF, Bool.and_eq_true] at h
      simp only [encFields, encNoMapV σ1 σ2 v h.1, encNoMapF σ1 σ2 fs h.2]

theorem encNoMapL (σ1 σ2 : List (List Nat) → List (List Nat)) :
    ∀ es : List Val, noMappingL es = true → encList σ1 es = encList σ2 es
  | [] => fun _ => rfl
  | v :: vs => fun h => by
      simp only [noMappingL, Bool.and_eq_true] at h
      simp only [encList, encNoMapV σ1 σ2 v h.1, encNoMapL σ1 σ2 vs h.2]

end

mutual

/-- Encoding never fails on values with no default-arm node. -/
theorem encTotalV (σ : List (List Nat) → List (List Nat)) :
    ∀ v : Val, noOther v = true → ∃ bs, EncodeValue σ v = .ok bs
  | .vstr s => fun _ => ⟨_, rfl⟩
  | .vstruct fs => fun h => by
      simp only [noOther] at h
      simpa only [EncodeValue] using encTotalF σ fs h
  | .vslice es => fun h => by
      simp only [noOther] at h
      obtain ⟨bs, hbs⟩ := encTotalL σ es h
      exact ⟨encLen8 es.length ++ bs, by simp only [EncodeValue, hbs]⟩
  | .varray es => fun h => by
      simp only [noOther] at h
      simpa only [EncodeValue] using encTotalL σ es h
  | .vmap ps => fun h => by
      simp only [noOther] at h
      obtain ⟨cs, hcs⟩ := encTotalP σ ps h
      exact ⟨encLen8 ps.length ++ (σ cs).flatten, by simp only [EncodeValue, hcs]⟩
  | .vint w n => fun _ => ⟨_, rfl⟩
  | .vuint w n => fun _ => ⟨_, rfl⟩
  | .vother ci raw => fun h => by
      simp only [noOther, Bool.false_eq_true] at h

theorem encTotalF (σ : List (List Nat) → List (List Nat)) :
    ∀ fs : List (Bool × Val), noOtherF fs = true →
      ∃ bs, encFields σ fs = .ok bs
  | [] => fun _ => ⟨[], rfl⟩
  | (ci, v) :: fs => fun h => by
      simp only [noOtherF, Bool.and_eq_true] at h
      obtain ⟨b1, h1⟩ := encTotalV σ v h.1
      obtain ⟨b2, h2⟩ := encTotalF σ fs h.2
      cases ci with
      | false => exact ⟨b2, by simpa only [encFields] using h2⟩
      | true => exact ⟨b1 ++ b2, by simp [encFields, h1, h2]⟩

theorem encTotalL (σ : List (List Nat) → List (List Nat)) :
    ∀ es : List Val, noOtherL es = true → ∃ bs, encList σ es = .ok bs
  | [] => fun _ => ⟨[], rfl⟩
  | v :: vs => fun h => by
      simp only [noOtherL, Bool.and_eq_true] at h
      obtain ⟨b1, h1⟩ := encTotalV σ v h.1
      obtain ⟨b2, h2⟩ := encTotalL σ vs h.2
      exact ⟨b1 ++ b2, by simp only [encList, h1, h2]⟩

theorem encTotalP (σ : List (List Nat) → List (List Nat)) :
    ∀ ps : List (Val × Val), noOtherP ps = true →
      ∃ cs, encPairs σ ps = .ok cs
  | [] => fun _ => ⟨[], rfl⟩
  | (k, v) :: ps => fun h => by
      simp only [noOtherP, Bool.and_eq_true] at h
      obtain ⟨bk, hk⟩ := encTotalV σ k h.1.1
      obtain ⟨bv, hv⟩ := encTotalV σ v h.1.2
      obtain ⟨cs, hcs⟩ := encTotalP σ ps h.2
      exact ⟨(bk ++ bv) :: cs, by simp only [encPairs, hk, hv, hcs]⟩

end

theorem readFull_ok {n : Nat} {bs l rest : List Nat}
    (h : readFull n bs = .ok (l, rest)) :
    l.length = n ∧ n ≤ bs.length ∧ bs = l ++ rest := by
  unfold readFull at h
  split at h
  next hle =>
    simp only [Except.ok.injEq, Prod.mk.injEq] at h
    obtain ⟨rfl, rfl⟩ := h
    refine ⟨?_, hle, (List.take_append_drop n bs).symm⟩
    simp only [List.length_take]
    omega
  next => simp at h

theorem readFull_error {n : Nat} {bs : List Nat}
    {e : DErr × List Nat} (h : readFull n bs = .error e) :
    e = (.eof, []) ∧ bs.length < n := by
  unfold readFull at h
  split at h
  next => simp at h
  next hle =>
    simp only [Except.error.injEq] at h
    exact ⟨h.symm, by omega⟩

theorem take_append_long {α : Type} (l1 l2 : List α) (m : Nat)
    (h : l1.length ≤ m) :
    (l1 ++ l2).take m = l1 ++ l2.take (m - l1.length) := by
  have hm : m = l1.length + (m - l1.length) := by omega
  rw [hm, List.take_append, Nat.add_sub_cancel_left]

theorem truncLoop (f : Val → List Nat → Except (DErr × List Nat) (Val × List Nat))
    (dflt : Val) (Hf : ∀ cur, TruncSpec (f cur)) :
    ∀ (n : Nat) (curs : List Val), TruncSpec (decLoop f dflt n curs) := by
  intro n
  induction n with
  | zero =>
      intro curs bs a r h
      simp only [decLoop, Except.ok.injEq, Prod.mk.injEq] at h
      obtain ⟨rfl, rfl⟩ := h
      exact ⟨[], rfl, fun zs => rfl, fun m hm => by simp at hm⟩
  | succ n ih =>
      intro curs bs a r h
      simp only [decLoop] at h
      cases hf : f (curs.headD dflt) bs with
      | error e => simp only [hf] at h; cases h
      | ok p =>
        obtain ⟨v, bs1⟩ := p
        simp only [hf] at h
        cases hloop : decLoop f dflt n curs.tail bs1 with
        | error e => simp only [hloop] at h; cases h
        | ok q =>
          obtain ⟨vs, r2⟩ := q
          simp only [hloop, Except.ok.injEq, Prod.mk.injEq] at h
          obtain ⟨rfl, rfl⟩ := h
          obtain ⟨c1, hbs, loc1, tr1⟩ := Hf (curs.headD dflt) bs v bs1 hf
          obtain ⟨c2, hbs1, loc2, tr2⟩ := ih curs.tail bs1 vs r2 hloop
          refine ⟨c1 ++ c2, ?_, ?_, ?_⟩
          · rw [hbs, hbs1, List.append_assoc]
          · intro zs
            simp only [decLoop, List.append_assoc, loc1, loc2]
          · intro m hm
            simp only [List.length_append] at hm
            simp only [decLoop]
            rcases Nat.lt_or_ge m c1.length with hlt | hge
            · rw [List.take_append_of_le_length (Nat.le_of_lt hlt),
                tr1 m hlt]
            · have hm2 : m - c1.length < c2.length := by omega
              simp only [take_append_long c1 c2 m hge, loc1, tr2 _ hm2]

theorem truncPairLoop
    (fk fv : List Nat → Except (DErr × List Nat) (Val × List Nat))
    (Hk : TruncSpec fk) (Hv : TruncSpec fv) :
    ∀ (n : Nat) (acc : List (Val × Val)),
      TruncSpec (decPairLoop fk fv n acc) := by
  intro n
  induction n with
  | zero =>
      intro acc bs a r h
      simp only [decPairLoop, Except.ok.injEq, Prod.mk.injEq] at h
      obtain ⟨rfl, rfl⟩ := h
      exact ⟨[], rfl, fun zs => rfl, fun m hm => by simp at hm⟩
  | succ n ih =>
      intro acc bs a r h
      simp only [decPairLoop] at h
      cases hk : fk bs with
      | error e => simp only [hk] at h; cases h
      | ok p =>
        obtain ⟨k0, bs1⟩ := p
        simp only [hk] at h
        cases hv : fv bs1 with
        | error e => simp only [hv] at h; cases h
        | ok q =>
          obtain ⟨v0, bs2⟩ := q
          simp only [hv] at h
          obtain ⟨ck, hbs, lock, trk⟩ := Hk bs k0 bs1 hk
          obtain ⟨cv, hbs1, locv, trv⟩ := Hv bs1 v0 bs2 hv
          obtain ⟨c2, hbs2, loc2, tr2⟩ := ih (insertKV acc k0 v0) bs2 a r h
          refine ⟨ck ++ (cv ++ c2), ?_, ?_, ?_⟩
          · rw [hbs, hbs1, hbs2, List.append_assoc, List.append_assoc]
          · intro zs
            simp only [decPairLoop, List.append_assoc, lock, locv]
            exact loc2 zs
          · intro m hm
            simp only [List.length_append] at hm
            simp only [decPairLoop]
            rcases Nat.lt_or_ge m ck.length with hlt | hge
            · rw [List.take_append_of_le_length (Nat.le_of_lt hlt),
                trk m hlt]
            · rcases Nat.lt_or_ge (m - ck.length) cv.length with hlt2 | hge2
              · simp only [take_append_long ck (cv ++ c2) m hge, lock,
                  List.take_append_of_le_length (Nat.le_of_lt hlt2),
                  trv _ hlt2]
              · have hm2 : m - ck.length - cv.length < c2.length := by omega
                simp only [take_append_long ck (cv ++ c2) m hge, lock,
                  take_append_long cv c2 _ hge2, locv, tr2 _ hm2]

mutual

/-- Decoding any target type behaves well on truncated input: a success
splits the stream into consumed bytes plus remainder, depends only on the
consumed bytes, and fails with end-of-stream on every strictly shorter
prefix of them. -/
theorem truncV : ∀ (t : Ty) (settable : Bool) (cur : Val),
    TruncSpec (DecodeValue t settable cur)
  | .tstr => by
      intro settable cur bs a r h
      cases settable with
      | false => simp [DecodeValue] at h
      | true =>
        simp only [DecodeValue, Bool.not_true, Bool.false_eq_true,
          if_false] at h
        cases h8 : readFull 8 bs with
        | error er => simp only [h8] at h; cases h
        | ok p =>
          obtain ⟨l, bs1⟩ := p
          simp only [h8] at h
          by_cases hg : 2 ^ 63 ≤ decLe8 l
          · rw [if_pos hg] at h; cases h
          · rw [if_neg hg] at h
            cases hL : readFull (decLe8 l) bs1 with
            | error er => simp only [hL] at h; cases h
            | ok q =>
              obtain ⟨sb, bs2⟩ := q
              simp only [hL, Except.ok.injEq, Prod.mk.injEq] at h
              obtain ⟨rfl, rfl⟩ := h
              obtain ⟨hl8, hle8, hsp1⟩ := readFull_ok h8
              obtain ⟨hsbl, hleL, hsp2⟩ := readFull_ok hL
              refine ⟨l ++ sb, ?_, ?_, ?_⟩
              · rw [hsp1, hsp2, List.append_assoc]
              · intro zs
                simp only [DecodeValue, Bool.not_true, Bool.false_eq_true,
                  if_false, List.append_assoc,
                  readFull_append 8 l (sb ++ zs) hl8, if_neg hg,
                  readFull_append (decLe8 l) sb zs hsbl]
              · intro m hm
                simp only [List.length_append] at hm
                simp only [DecodeValue, Bool.not_true, Bool.false_eq_true,
                  if_false]
                rcases Nat.lt_or_ge m 8 with hm8 | hm8
                · have hlen : ((l ++ sb).take m).length < 8 := by
                    simp only [List.length_take, List.length_append]
                    omega
                  rw [readFull_short 8 _ hlen]
                · have hshort : (sb.take (m - l.length)).length < decLe8 l := by
                    simp only [List.length_take]
                    omega
                  simp only [take_append_long l sb m (by omega),
                    readFull_append 8 l _ hl8, if_neg hg,
                    readFull_short (decLe8 l) _ hshort]
  | .tstruct ts => by
      intro settable cur bs a r h
      simp only [DecodeValue] at h
      cases hd : decFields ts settable (fieldsOf cur) bs with
      | error er => simp only [hd] at h; cases h
      | ok q =>
        obtain ⟨fs, r2⟩ := q
        simp only [hd, Except.ok.injEq, Prod.mk.injEq] at h
        obtain ⟨rfl, rfl⟩ := h
        obtain ⟨c, hbs, loc, tr⟩ := truncF ts settable (fieldsOf cur) bs fs r2 hd
        refine ⟨c, hbs, ?_, ?_⟩
        · intro zs
          simp only [DecodeValue, loc]
        · intro m hm
          simp only [DecodeValue, tr m hm]
  | .tslice e => by
      intro settable cur bs a r h
      simp only [DecodeValue] at h
      cases h8 : readFull 8 bs with
      | error er => simp only [h8] at h; cases h
      | ok p =>
        obtain ⟨l, bs1⟩ := p
        simp only [h8] at h
        by_cases hg : 2 ^ 63 ≤ decLe8 l
        · rw [if_pos hg] at h; cases h
        · rw [if_neg hg] at h
          cases hloop : decLoop (fun c b => DecodeValue e true c b) (zeroVal e)
              (decLe8 l) [] bs1 with
          | error er => simp only [hloop] at h; cases h
          | ok q =>
            obtain ⟨es, r2⟩ := q
            simp only [hloop, Except.ok.injEq, Prod.mk.injEq] at h
            obtain ⟨rfl, rfl⟩ := h
            obtain ⟨hl8, hle8, hsp1⟩ := readFull_ok h8
            obtain ⟨c2, hbs1, loc2, tr2⟩ :=
              truncLoop _ (zeroVal e) (fun cur2 => truncV e true cur2)
                (decLe8 l) [] bs1 es r2 hloop
            refine ⟨l ++ c2, ?_, ?_, ?_⟩
            · rw [hsp1, hbs1, List.append_assoc]
            · intro zs
              simp only [DecodeValue, List.append_assoc,
                readFull_append 8 l (c2 ++ zs) hl8, if_neg hg, loc2]
            · intro m hm
              simp only [List.length_append] at hm
              simp only [DecodeValue]
              rcases Nat.lt_or_ge m 8 with hm8 | hm8
              · have hlen : ((l ++ c2).take m).length < 8 := by
                  simp only [List.length_take, List.length_append]
                  omega
                rw [readFull_short 8 _ hlen]
              · have hm2 : m - l.length < c2.length := by omega
                simp only [take_append_long l c2 m (by omega),
                  readFull_append 8 l _ hl8, if_neg hg, tr2 _ hm2]
  | .tarray n e => by
      intro settable cur bs a r h
      simp only [DecodeValue] at h
      cases hloop : decLoop (fun c b => DecodeValue e settable c b) (zeroVal e)
          n (elemsOf cur) bs with
      | error er => simp only [hloop] at h; cases h
      | ok q =>
        obtain ⟨es, r2⟩ := q
        simp only [hloop, Except.ok.injEq, Prod.mk.injEq] at h
        obtain ⟨rfl, rfl⟩ := h
        obtain ⟨c2, hbs, loc2, tr2⟩ :=
          truncLoop _ (zeroVal e) (fun cur2 => truncV e settable cur2)
            n (elemsOf cur) bs es r2 hloop
        refine ⟨c2, hbs, ?_, ?_⟩
        · intro zs
          simp only [DecodeValue, loc2]
        · intro m hm
          simp only [DecodeValue, tr2 m hm]
  | .tmap kt vt => by
      intro settable cur bs a r h
      simp only [DecodeValue] at h
      cases h8 : readFull 8 bs with
      | error er => simp only [h8] at h; cases h
      | ok p =>
        obtain ⟨l, bs1⟩ := p
        simp only [h8] at h
        cases hloop : decPairLoop (fun b => DecodeValue kt true (zeroVal kt) b)
            (fun b => DecodeValue vt true (zeroVal vt) b) (decLe8 l) [] bs1 with
        | error er => simp only [hloop] at h; cases h
        | ok q =>
          obtain ⟨ps, r2⟩ := q
          simp only [hloop, Except.ok.injEq, Prod.mk.injEq] at h
          obtain ⟨rfl, rfl⟩ := h
          obtain ⟨hl8, hle8, hsp1⟩ := readFull_ok h8
          obtain ⟨c2, hbs1, loc2, tr2⟩ :=
            truncPairLoop _ _ (truncV kt true (zeroVal kt))
              (truncV vt true (zeroVal vt)) (decLe8 l) [] bs1 ps r2 hloop
          refine ⟨l ++ c2, ?_, ?_, ?_⟩
          · rw [hsp1, hbs1, List.append_assoc]
          · intro zs
            simp only [DecodeValue, List.append_assoc,
              readFull_append 8 l (c2 ++ zs) hl8, loc2]
          · intro m hm
            simp only [List.length_append] at hm
            simp only [DecodeValue]
            rcases Nat.lt_or_ge m 8 with hm8 | hm8
            · have hlen : ((l ++ c2).take m).length < 8 := by
                simp only [List.length_take, List.length_append]
                omega
              rw [readFull_short 8 _ hlen]
            · have hm2 : m - l.length < c2.length := by omega
              simp only [take_append_long l c2 m (by omega),
                readFull_append 8 l _ hl8, tr2 _ hm2]
  | .tint w => by
      intro settable cur bs a r h
      cases settable with
      | false => simp [DecodeValue] at h
      | true =>
        simp only [DecodeValue, Bool.not_true, Bool.false_eq_true,
          if_false] at h
        cases h8 : readFull 8 bs with
        | error er => simp only [h8] at h; cases h
        | ok p =>
          obtain ⟨l, bs1⟩ := p
          simp only [h8, Except.ok.injEq, Prod.mk.injEq] at h
          obtain ⟨rfl, rfl⟩ := h
          obtain ⟨hl8, hle8, hsp1⟩ := readFull_ok h8
          refine ⟨l, hsp1, ?_, ?_⟩
          · intro zs
            simp only [DecodeValue, Bool.not_true, Bool.false_eq_true,
              if_false, readFull_append 8 l zs hl8]
          · intro m hm
            have hlen : (l.take m).length < 8 := by
              simp only [List.length_take]
              omega
            simp only [DecodeValue, Bool.not_true, Bool.false_eq_true,
              if_false, readFull_short 8 _ hlen]
  | .tuint w => by
      intro settable cur bs a r h
      cases settable with
      | false => simp [DecodeValue] at h
      | true =>
        simp only [DecodeValue, Bool.not_true, Bool.false_eq_true,
          if_false] at h
        cases h8 : readFull 8 bs with
        | error er => simp only [h8] at h; cases h
        | ok p =>
          obtain ⟨l, bs1⟩ := p
          simp only [h8, Except.ok.injEq, Prod.mk.injEq] at h
          obtain ⟨rfl, rfl⟩ := h
          obtain ⟨hl8, hle8, hsp1⟩ := readFull_ok h8
          refine ⟨l, hsp1, ?_, ?_⟩
          · intro zs
            simp only [DecodeValue, Bool.not_true, Bool.false_eq_true,
              if_false, readFull_append 8 l zs hl8]
          · intro m hm
            have hlen : (l.take m).length < 8 := by
              simp only [List.length_take]
              omega
            simp only [DecodeValue, Bool.not_true, Bool.false_eq_true,
              if_false, readFull_short 8 _ hlen]
  | .tother w => by
      intro settable cur bs a r h
      cases settable with
      | false => simp [DecodeValue] at h
      | true =>
        simp only [DecodeValue, Bool.not_true, Bool.false_eq_true,
          if_false] at h
        cases h8 : readFull w bs with
        | error er => simp only [h8] at h; cases h
        | ok p =>
          obtain ⟨l2, bs1⟩ := p
          simp only [h8] at h
          cases h

/-- Field-list version of the truncation property. -/
theorem truncF : ∀ (ts : List (Bool × Ty)) (settable : Bool)
    (curs : List (Bool × Val)), TruncSpec (decFields ts settable curs)
  | [] => by
      intro settable curs bs a r h
      simp only [decFields, Except.ok.injEq, Prod.mk.injEq] at h
      obtain ⟨rfl, rfl⟩ := h
      exact ⟨[], rfl, fun zs => rfl, fun m hm => by simp at hm⟩
  | (ci, t) :: ts => by
      intro settable curs bs a r h
      cases ci with
      | true =>
        simp only [decFields, if_true] at h
        cases hf : DecodeValue t settable ((curs.headD (true, zeroVal t)).2) bs with
        | error er => simp only [hf] at h; cases h
        | ok p =>
          obtain ⟨v, bs1⟩ := p
          simp only [hf] at h
          cases hrest : decFields ts settable curs.tail bs1 with
          | error er => simp only [hrest] at h; cases h
          | ok q =>
            obtain ⟨fs, r2⟩ := q
            simp only [hrest, Except.ok.injEq, Prod.mk.injEq] at h
            obtain ⟨rfl, rfl⟩ := h
            obtain ⟨c1, hbs, loc1, tr1⟩ :=
              truncV t settable ((curs.headD (true, zeroVal t)).2) bs v bs1 hf
            obtain ⟨c2, hbs1, loc2, tr2⟩ :=
              truncF ts settable curs.tail bs1 fs r2 hrest
            refine ⟨c1 ++ c2, ?_, ?_, ?_⟩
            · rw [hbs, hbs1, List.append_assoc]
            · intro zs
              simp only [decFields, if_true, List.append_assoc, loc1, loc2]
            · intro m hm
              simp only [List.length_append] at hm
              simp only [decFields, if_true]
              rcases Nat.lt_or_ge m c1.length with hlt | hge
              · rw [List.take_append_of_le_length (Nat.le_of_lt hlt),
                  tr1 m hlt]
              · have hm2 : m - c1.length < c2.length := by omega
                simp only [take_append_long c1 c2 m hge, loc1, tr2 _ hm2]
      | false =>
        simp only [decFields, Bool.false_eq_true, if_false] at h
        cases hrest : decFields ts settable curs.tail bs with
        | error er => simp only [hrest] at h; cases h
        | ok q =>
          obtain ⟨fs, r2⟩ := q
          simp only [hrest, Except.ok.injEq, Prod.mk.injEq] at h
          obtain ⟨rfl, rfl⟩ := h
          obtain ⟨c2, hbs, loc2, tr2⟩ :=
            truncF ts settable curs.tail bs fs r2 hrest
          refine ⟨c2, hbs, ?_, ?_⟩
          · intro zs
            simp only [decFields, Bool.false_eq_true, if_false, loc2]
          · intro m hm
            simp only [decFields, Bool.false_eq_true, if_false, tr2 m hm]

end

theorem suffLoop (f : Val → List Nat → Except (DErr × List Nat) (Val × List Nat))
    (dflt : Val) (Hf : ∀ cur, SuffixSpec (f cur)) :
    ∀ (n : Nat) (curs : List Val), SuffixSpec (decLoop f dflt n curs) := by
  intro n
  induction n with
  | zero =>
      intro curs bs
      exact ⟨0, Nat.zero_le _, rfl⟩
  | succ n ih =>
      intro curs bs
      obtain ⟨k1, hk1, hr1⟩ := Hf (curs.headD dflt) bs
      cases hf : f (curs.headD dflt) bs with
      | error e =>
          obtain ⟨e1, r1⟩ := e
          rw [hf] at hr1
          simp only [restOf] at hr1
          refine ⟨k1, hk1, ?_⟩
          simp only [decLoop, hf, restOf]
          exact hr1
      | ok p =>
          obtain ⟨v, bs1⟩ := p
          rw [hf] at hr1
          simp only [restOf] at hr1
          obtain ⟨k2, hk2, hr2⟩ := ih curs.tail bs1
          have hlen : bs1.length = bs.length - k1 := by
            rw [hr1, List.length_drop]
          refine ⟨k1 + k2, by omega, ?_⟩
          simp only [decLoop, hf]
          cases hl : decLoop f dflt n curs.tail bs1 with
          | error e2 =>
              obtain ⟨e3, r3⟩ := e2
              rw [hl] at hr2
              simp only [restOf] at hr2 ⊢
              rw [hr2, hr1, List.drop_drop]
          | ok q =>
              obtain ⟨vs, r3⟩ := q
              rw [hl] at hr2
              simp only [restOf] at hr2 ⊢
              rw [hr2, hr1, List.drop_drop]

theorem suffPairLoop
    (fk fv : List Nat → Except (DErr × List Nat) (Val × List Nat))
    (Hk : SuffixSpec fk) (Hv : SuffixSpec fv) :
    ∀ (n : Nat) (acc : List (Val × Val)),
      SuffixSpec (decPairLoop fk fv n acc) := by
  intro n
  induction n with
  | zero =>
      intro acc bs
      exact ⟨0, Nat.zero_le _, rfl⟩
  | succ n ih =>
      intro acc bs
      obtain ⟨k1, hk1, hr1⟩ := Hk bs
      cases hk : fk bs with
      | error e =>
          obtain ⟨e1, r1⟩ := e
          rw [hk] at hr1
          simp only [restOf] at hr1
          refine ⟨k1, hk1, ?_⟩
          simp only [decPairLoop, hk, restOf]
          exact hr1
      | ok p =>
          obtain ⟨k0, bs1⟩ := p
          rw [hk] at hr1
          simp only [restOf] at hr1
          have hlen1 : bs1.length = bs.length - k1 := by
            rw [hr1, List.length_drop]
          obtain ⟨k2, hk2, hr2⟩ := Hv bs1
          cases hv : fv bs1 with
          | error e =>
              obtain ⟨e1, r1⟩ := e
              rw [hv] at hr2
              simp only [restOf] at hr2
              refine ⟨k1 + k2, by omega, ?_⟩
              simp only [decPairLoop, hk, hv, restOf]
              rw [hr2, hr1, List.drop_drop]
          | ok q =>
              obtain ⟨v0, bs2⟩ := q
              rw [hv] at hr2
              simp only [restOf] at hr2
              have hlen2 : bs2.length = bs1.length - k2 := by
                rw [hr2, List.length_drop]
              obtain ⟨k3, hk3, hr3⟩ := ih (insertKV acc k0 v0) bs2
              refine ⟨k1 + k2 + k3, by omega, ?_⟩
              simp only [decPairLoop, hk, hv]
              rw [hr3, hr2, hr1, List.drop_drop, List.drop_drop,
                Nat.add_assoc]

mutual

/-- Decoding never reads out of bounds: for every target type, settability
and current contents, the remainder the decoder reports (on success or on
any failure) is a suffix of the supplied stream. -/
theorem suffV : ∀ (t : Ty) (settable : Bool) (cur : Val),
    SuffixSpec (DecodeValue t settable cur)
  | .tstr => by
      intro settable cur bs
      cases settable with
      | false => exact ⟨0, Nat.zero_le _, rfl⟩
      | true =>
        cases h8 : readFull 8 bs with
        | error er =>
            obtain ⟨he, hlen⟩ := readFull_error h8
            subst he
            refine ⟨bs.length, Nat.le_refl _, ?_⟩
            simp only [DecodeValue, Bool.not_true, Bool.false_eq_true,
              if_false, h8, restOf, List.drop_length]
        | ok p =>
          obtain ⟨l, bs1⟩ := p
          obtain ⟨hl8, hle8, hsp⟩ := readFull_ok h8
          have hbs1 : bs1 = bs.drop 8 := by
            rw [hsp, ← hl8, List.drop_left]
          by_cases hg : 2 ^ 63 ≤ decLe8 l
          · refine ⟨8, hle8, ?_⟩
            simp only [DecodeValue, Bool.not_true, Bool.false_eq_true,
              if_false, h8, if_pos hg, restOf]
            exact hbs1
          · cases hL : readFull (decLe8 l) bs1 with
            | error er =>
                obtain ⟨he, hlen⟩ := readFull_error hL
                subst he
                refine ⟨bs.length, Nat.le_refl _, ?_⟩
                simp only [DecodeValue, Bool.not_true, Bool.false_eq_true,
                  if_false, h8, if_neg hg, hL, restOf, List.drop_length]
            | ok q =>
                obtain ⟨sb, bs2⟩ := q
                obtain ⟨hsbl, hleL, hsp2⟩ := readFull_ok hL
                have hbs2 : bs2 = bs1.drop (decLe8 l) := by
                  rw [hsp2, ← hsbl, List.drop_left]
                have hlen1 : bs.length = 8 + bs1.length := by
                  rw [hsp]
                  simp [hl8]
                refine ⟨8 + decLe8 l, by omega, ?_⟩
                simp only [DecodeValue, Bool.not_true, Bool.false_eq_true,
                  if_false, h8, if_neg hg, hL, restOf]
                rw [hbs2, hbs1, List.drop_drop]
  | .tstruct ts => by
      intro settable cur bs
      obtain ⟨k, hk, hr⟩ := suffF ts settable (fieldsOf cur) bs
      refine ⟨k, hk, ?_⟩
      simp only [DecodeValue]
      cases hd : decFields ts settable (fieldsOf cur) bs with
      | error e =>
          obtain ⟨e1, r1⟩ := e
          rw [hd] at hr
          simpa only [restOf] using hr
      | ok q =>
          obtain ⟨fs, r2⟩ := q
          rw [hd] at hr
          simpa only [restOf] using hr
  | .tslice e => by
      intro settable cur bs
      cases h8 : readFull 8 bs with
      | error er =>
          obtain ⟨he, hlen⟩ := readFull_error h8
          subst he
          refine ⟨bs.length, Nat.le_refl _, ?_⟩
          simp only [DecodeValue, h8, restOf, List.drop_length]
      | ok p =>
        obtain ⟨l, bs1⟩ := p
        obtain ⟨hl8, hle8, hsp⟩ := readFull_ok h8
        have hbs1 : bs1 = bs.drop 8 := by
          rw [hsp, ← hl8, List.drop_left]
        have hlen1 : bs.length = 8 + bs1.length := by
          rw [hsp]
          simp [hl8]
        by_cases hg : 2 ^ 63 ≤ decLe8 l
        · refine ⟨8, hle8, ?_⟩
          simp only [DecodeValue, h8, if_pos hg, restOf]
          exact hbs1
        · obtain ⟨k2, hk2, hr2⟩ :=
            suffLoop _ (zeroVal e) (fun cur2 => suffV e true cur2)
              (decLe8 l) [] bs1
          refine ⟨8 + k2, by omega, ?_⟩
          simp only [DecodeValue, h8, if_neg hg]
          cases hl : decLoop (fun c b => DecodeValue e true c b) (zeroVal e)
              (decLe8 l) [] bs1 with
          | error e2 =>
              obtain ⟨e3, r3⟩ := e2
              rw [hl] at hr2
              simp only [restOf] at hr2 ⊢
              rw [hr2, hbs1, List.drop_drop]
          | ok q =>
              obtain ⟨es, r3⟩ := q
              rw [hl] at hr2
              simp only [restOf] at hr2 ⊢
              rw [hr2, hbs1, List.drop_drop]
  | .tarray n e => by
      intro settable cur bs
      obtain ⟨k, hk, hr⟩ :=
        suffLoop _ (zeroVal e) (fun cur2 => suffV e settable cur2)
          n (elemsOf cur) bs
      refine ⟨k, hk, ?_⟩
      simp only [DecodeValue]
      cases hl : decLoop (fun c b => DecodeValue e settable c b) (zeroVal e)
          n (elemsOf cur) bs with
      | error e2 =>
          obtain ⟨e3, r3⟩ := e2
          rw [hl] at hr
          simpa only [restOf] using hr
      | ok q =>
          obtain ⟨es, r3⟩ := q
          rw [hl] at hr
          simpa only [restOf] using hr
  | .tmap kt vt => by
      intro settable cur bs
      cases h8 : readFull 8 bs with
      | error er =>
          obtain ⟨he, hlen⟩ := readFull_error h8
          subst he
          refine ⟨bs.length, Nat.le_refl _, ?_⟩
          simp only [DecodeValue, h8, restOf, List.drop_length]
      | ok p =>
        obtain ⟨l, bs1⟩ := p
        obtain ⟨hl8, hle8, hsp⟩ := readFull_ok h8
        have hbs1 : bs1 = bs.drop 8 := by
          rw [hsp, ← hl8, List.drop_left]
        have hlen1 : bs.length = 8 + bs1.length := by
          rw [hsp]
          simp [hl8]
        obtain ⟨k2, hk2, hr2⟩ :=
          suffPairLoop _ _ (suffV kt true (zeroVal kt))
            (suffV vt true (zeroVal vt)) (decLe8 l) [] bs1
        refine ⟨8 + k2, by omega, ?_⟩
        simp only [DecodeValue, h8]
        cases hl : decPairLoop (fun b => DecodeValue kt true (zeroVal kt) b)
            (fun b => DecodeValue vt true (zeroVal vt) b) (decLe8 l) [] bs1 with
        | error e2 =>
            obtain ⟨e3, r3⟩ := e2
            rw [hl] at hr2
            simp only [restOf] at hr2 ⊢
            rw [hr2, hbs1, List.drop_drop]
        | ok q =>
            obtain ⟨ps, r3⟩ := q
            rw [hl] at hr2
            simp only [restOf] at hr2 ⊢
            rw [hr2, hbs1, List.drop_drop]
  | .tint w => by
      intro settable cur bs
      cases settable with
      | false => exact ⟨0, Nat.zero_le _, rfl⟩
      | true =>
        cases h8 : readFull 8 bs with
        | error er =>
            obtain ⟨he, hlen⟩ := readFull_error h8
            subst he
            refine ⟨bs.length, Nat.le_refl _, ?_⟩
            simp only [DecodeValue, Bool.not_true, Bool.false_eq_true,
              if_false, h8, restOf, List.drop_length]
        | ok p =>
            obtain ⟨l, bs1⟩ := p
            obtain ⟨hl8, hle8, hsp⟩ := readFull_ok h8
            refine ⟨8, hle8, ?_⟩
            simp only [DecodeValue, Bool.not_true, Bool.false_eq_true,
              if_false, h8, restOf]
            rw [hsp, ← hl8, List.drop_left]
  | .tuint w => by
      intro settable cur bs
      cases settable with
      | false => exact ⟨0, Nat.zero_le _, rfl⟩
      | true =>
        cases h8 : readFull 8 bs with
        | error er =>
            obtain ⟨he, hlen⟩ := readFull_error h8
            subst he
            refine ⟨bs.length, Nat.le_refl _, ?_⟩
            simp only [DecodeValue, Bool.not_true, Bool.false_eq_true,
              if_false, h8, restOf, List.drop_length]
        | ok p =>
            obtain ⟨l, bs1⟩ := p
            obtain ⟨hl8, hle8, hsp⟩ := readFull_ok h8
            refine ⟨8, hle8, ?_⟩
            simp only [DecodeValue, Bool.not_true, Bool.false_eq_true,
              if_false, h8, restOf]
            rw [hsp, ← hl8, List.drop_left]
  | .tother w => by
      intro settable cur bs
      cases settable with
      | false => exact ⟨0, Nat.zero_le _, rfl⟩
      | true =>
        cases h8 : readFull w bs with
        | error er =>
            obtain ⟨he, hlen⟩ := readFull_error h8
            subst he
            refine ⟨bs.length, Nat.le_refl _, ?_⟩
            simp only [DecodeValue, Bool.not_true, Bool.false_eq_true,
              if_false, h8, restOf, List.drop_length]
        | ok p =>
            obtain ⟨l, bs1⟩ := p
            obtain ⟨hlw, hlew, hsp⟩ := readFull_ok h8
            refine ⟨w, hlew, ?_⟩
            simp only [DecodeValue, Bool.not_true, Bool.false_eq_true,
              if_false, h8, restOf]
            rw [hsp, ← hlw, List.drop_left]

/-- Field-list version of the in-bounds property. -/
theorem suffF : ∀ (ts : List (Bool × Ty)) (settable : Bool)
    (curs : List (Bool × Val)), SuffixSpec (decFields ts settable curs)
  | [] => by
      intro settable curs bs
      exact ⟨0, Nat.zero_le _, rfl⟩
  | (ci, t) :: ts => by
      intro settable curs bs
      cases ci with
      | true =>
        obtain ⟨k1, hk1, hr1⟩ :=
          suffV t settable ((curs.headD (true, zeroVal t)).2) bs
        cases hf : DecodeValue t settable ((curs.headD (true, zeroVal t)).2) bs with
        | error e =>
            obtain ⟨e1, r1⟩ := e
            rw [hf] at hr1
            simp only [restOf] at hr1
            refine ⟨k1, hk1, ?_⟩
            simp only [decFields, if_true, hf, restOf]
            exact hr1
        | ok p =>
            obtain ⟨v, bs1⟩ := p
            rw [hf] at hr1
            simp only [restOf] at hr1
            have hlen1 : bs1.length = bs.length - k1 := by
              rw [hr1, List.length_drop]
            obtain ⟨k2, hk2, hr2⟩ := suffF ts settable curs.tail bs1
            refine ⟨k1 + k2, by omega, ?_⟩
            simp only [decFields, if_true, hf]
            cases hrest : decFields ts settable curs.tail bs1 with
            | error e2 =>
                obtain ⟨e3, r3⟩ := e2
                rw [hrest] at hr2
                simp only [restOf] at hr2 ⊢
                rw [hr2, hr1, List.drop_drop]
            | ok q =>
                obtain ⟨fs, r3⟩ := q
                rw [hrest] at hr2
                simp only [restOf] at hr2 ⊢
                rw [hr2, hr1, List.drop_drop]
      | false =>
        obtain ⟨k2, hk2, hr2⟩ := suffF ts settable curs.tail bs
        refine ⟨k2, hk2, ?_⟩
        simp only [decFields, Bool.false_eq_true, if_false]
        cases hrest : decFields ts settable curs.tail bs with
        | error e2 =>
            obtain ⟨e3, r3⟩ := e2
            rw [hrest] at hr2
            simpa only [restOf] using hr2
        | ok q =>
            obtain ⟨fs, r3⟩ := q
            rw [hrest] at hr2
            simpa only [restOf] using hr2

end

/-- C1: for every supported shape and every well-formed value of that shape
whose leaves are all introspectable, encoding and then decoding into a
freshly constructed settable zero target of the same shape returns exactly
the original value, consuming the whole encoding. -/
theorem c1_round_trip (v : Val) (t : Ty)
    (h1 : hasTy v t = true) (h2 : wfV v = true) (h3 : noOther v = true)
    (h4 : allIntrosp v = true) :
    ∃ bs, Encode id v = .ok bs ∧ Decode bs t true (zeroVal t) = .ok (v, []) := by
  obtain ⟨bs, he, hd⟩ := rtV v t h1 h2 h3 h4
  refine ⟨bs, he, ?_⟩
  have h := hd [] (zeroVal t)
  rw [List.append_nil] at h
  exact h

/-- Witness for C1 at a concrete nested value covering every supported
shape. -/
theorem c1_round_trip_witness :
    (hasTy c1Val c1Ty = true ∧ wfV c1Val = true ∧ noOther c1Val = true ∧
      allIntrosp c1Val = true) ∧
    ∃ bs, Encode id c1Val = .ok bs ∧
      Decode bs c1Ty true (zeroVal c1Ty) = .ok (c1Val, []) :=
  ⟨⟨rfl, rfl, rfl, rfl⟩, c1_round_trip c1Val c1Ty rfl rfl rfl rfl⟩

/-- C2 (refuted; code bug): decoding into a settable default-arm fixed-width
scalar (a float64, whose little-endian image of 4.0 is 00 00 00 00 00 00 10 40)
does not succeed: it consumes the 8-byte width and then fails with the
binary.Read invalid-type error, for every stream and target contents. -/
theorem c2_other_decode_fails :
    ∀ (tail : List Nat) (cur : Val),
      Decode ([0, 0, 0, 0, 0, 0, 16, 64] ++ tail) (.tother 8) true cur =
        .error (.invalidType, tail) := by
  intro tail cur
  simp only [Decode, DecodeValue, Bool.not_true, Bool.false_eq_true, if_false]
  rw [readFull_append 8 [0, 0, 0, 0, 0, 0, 16, 64] tail rfl]

/-- C3: decoding into a non-settable target of string, signed-integer or
unsigned-integer shape fails with ErrCantSet before any byte is consumed
(the error carries the untouched stream). -/
theorem c3_unsettable_no_bytes_consumed :
    ∀ (bs : List Nat) (cur : Val) (w w2 : Nat),
      Decode bs .tstr false cur = .error (.cantSet, bs) ∧
      Decode bs (.tint w) false cur = .error (.cantSet, bs) ∧
      Decode bs (.tuint w2) false cur = .error (.cantSet, bs) :=
  fun _ _ _ _ => ⟨rfl, rfl, rfl⟩

/-- C4 counterexample: a string length field of 2^63 (bytes
00 00 00 00 00 00 00 80) makes the decoder panic (make([]byte, length)
with length above the maximum slice length) instead of returning an
end-of-stream error, refuting "never panics ... for any length-field
value". -/
theorem c4_counterexample :
    Decode [0, 0, 0, 0, 0, 0, 0, 128] .tstr true (.vstr []) =
      .error (.panicLen, []) := rfl

/-- C4 (amended): for every target shape, settability and target contents,
decoding a byte sequence shorter than the format requires — any strictly
shorter prefix of the bytes a successful decode of the same target
consumes — returns an end-of-stream error; decoding never reads out of
bounds — the remainder it reports, on success or on any failure, is always
a suffix of the supplied input; and in particular a string whose length
field claims more bytes than remain yields the end-of-stream error.  All
of this is for length fields below 2^63: a larger length or count field
panics instead of returning an error (see the counterexample). -/
theorem c4_short_read_eof :
    (∀ (t : Ty) (settable : Bool) (cur : Val) (bs : List Nat) (v : Val)
        (r : List Nat) (m : Nat),
        DecodeValue t settable cur bs = .ok (v, r) →
        m < bs.length - r.length →
        DecodeValue t settable cur (bs.take m) = .error (.eof, [])) ∧
    (∀ (t : Ty) (settable : Bool) (cur : Val) (bs : List Nat),
        ∃ k, k ≤ bs.length ∧
          restOf (DecodeValue t settable cur bs) = bs.drop k) ∧
    (∀ (L : Nat) (tail : List Nat) (cur : Val),
        L < 2 ^ 63 → tail.length < L →
        DecodeValue .tstr true cur (encLen8 L ++ tail) = .error (.eof, [])) := by
  refine ⟨?_, ?_, ?_⟩
  · intro t settable cur bs v r m hok hm
    obtain ⟨c, hbs, -, htr⟩ := truncV t settable cur bs v r hok
    subst hbs
    have hcl : m < c.length := by
      simp only [List.length_append] at hm
      omega
    rw [List.take_append_of_le_length (Nat.le_of_lt hcl)]
    exact htr m hcl
  · intro t settable cur bs
    exact suffV t settable cur bs
  · intro L tail cur hL htail
    simp only [DecodeValue, Bool.not_true, Bool.false_eq_true, if_false]
    rw [readFull_append 8 (encLen8 L) tail (encLen8_length _)]
    simp only [decLe8_encLen8, Nat.mod_eq_of_lt (show L < 2 ^ 64 by omega),
      if_neg (show ¬ 2 ^ 63 ≤ L by omega)]
    rw [readFull_short L tail htail]

/-- Witness for the amended C4: a valid 10-byte string encoding truncated
to 5 bytes, the in-bounds property on a 3-byte stream against an integer
target, and a length field of 10 with only 3 bytes remaining. -/
theorem c4_short_read_eof_witness :
    (DecodeValue .tstr true (.vstr []) [2, 0, 0, 0, 0, 0, 0, 0, 97, 98] =
        .ok (.vstr [97, 98], []) ∧
      5 < ([2, 0, 0, 0, 0, 0, 0, 0, 97, 98] : List Nat).length -
        ([] : List Nat).length ∧
      DecodeValue .tstr true (.vstr [])
        (([2, 0, 0, 0, 0, 0, 0, 0, 97, 98] : List Nat).take 5) =
        .error (.eof, [])) ∧
    (∃ k, k ≤ ([1, 2, 3] : List Nat).length ∧
      restOf (DecodeValue (.tint 32) true (.vint 32 0) [1, 2, 3]) =
        ([1, 2, 3] : List Nat).drop k) ∧
    (10 < 2 ^ 63 ∧ ([1, 2, 3] : List Nat).length < 10 ∧
      DecodeValue .tstr true (.vstr []) (encLen8 10 ++ [1, 2, 3]) =
        .error (.eof, [])) :=
  ⟨⟨rfl, by decide,
    c4_short_read_eof.1 .tstr true (.vstr []) [2, 0, 0, 0, 0, 0, 0, 0, 97, 98]
      (.vstr [97, 98]) [] 5 rfl (by decide)⟩,
   c4_short_read_eof.2.1 (.tint 32) true (.vint 32 0) [1, 2, 3],
   ⟨by decide, by decide,
    c4_short_read_eof.2.2 10 [1, 2, 3] (.vstr []) (by decide) (by decide)⟩⟩

/-- C5: every signed or unsigned integer encodes to exactly 8 bytes
regardless of native width, and the slice of int32 values [1, -1, 1000]
encodes as a u64 count 3 followed by the three 8-byte little-endian
fields 1, two's-complement -1, and 1000 — for every map-order oracle. -/
theorem c5_integers_eight_bytes :
    (∀ (σ : List (List Nat) → List (List Nat)) (w : Nat) (n : Int),
        ∃ bs, EncodeValue σ (.vint w n) = .ok bs ∧ bs.length = 8) ∧
    (∀ (σ : List (List Nat) → List (List Nat)) (w m : Nat),
        ∃ bs, EncodeValue σ (.vuint w m) = .ok bs ∧ bs.length = 8) ∧
    (∀ σ : List (List Nat) → List (List Nat),
        EncodeValue σ (.vslice [.vint 32 1, .vint 32 (-1), .vint 32 1000]) =
          .ok [3, 0, 0, 0, 0, 0, 0, 0,
               1, 0, 0, 0, 0, 0, 0, 0,
               255, 255, 255, 255, 255, 255, 255, 255,
               232, 3, 0, 0, 0, 0, 0, 0]) :=
  ⟨fun _ _ n => ⟨encLen8 (n % (2 : Int) ^ 64).toNat, rfl, rfl⟩,
   fun _ _ m => ⟨encLen8 m, rfl, rfl⟩,
   fun _ => rfl⟩

/-- C6: the encoder visits declared fields in order and skips
non-introspectable fields entirely (encoding equals the encoding of the
filtered field list; in particular one exported X int32 = 7 plus any
non-exported field encodes like the exported field alone), and the decoder
skips the same field set, leaving the skipped field's contents in place and
not touching the stream for it. -/
theorem c6_skip_unexported :
    (∀ (σ : List (List Nat) → List (List Nat)) (fs : List (Bool × Val)),
        EncodeValue σ (.vstruct fs) =
          EncodeValue σ (.vstruct (fs.filter (fun p => p.1)))) ∧
    (∀ (σ : List (List Nat) → List (List Nat)) (u : Val),
        EncodeValue σ (.vstruct [(true, .vint 32 7), (false, u)]) =
          EncodeValue σ (.vstruct [(true, .vint 32 7)])) ∧
    (∀ (t : Ty) (ts : List (Bool × Ty)) (s : Bool) (c : Bool × Val)
        (curs : List (Bool × Val)) (bs : List Nat),
        DecodeValue (.tstruct ((false, t) :: ts)) s (.vstruct (c :: curs)) bs =
          (DecodeValue (.tstruct ts) s (.vstruct curs) bs).map
            (fun vr => (consF (false, c.2) vr.1, vr.2))) := by
  refine ⟨?_, ?_, ?_⟩
  · intro σ fs
    simp only [EncodeValue]
    exact encFields_filter σ fs
  · intro σ u
    rfl
  · intro t ts s c curs bs
    obtain ⟨cb, cv⟩ := c
    cases hdec : decFields ts s curs bs with
    | error e =>
        simp [DecodeValue, decFields, fieldsOf, hdec, Except.map]
    | ok pr =>
        obtain ⟨fs, rest⟩ := pr
        simp [DecodeValue, decFields, fieldsOf, hdec, Except.map, consF]

/-- C7: the mapping with the single pair k ↦ 1 encodes as a u64 count 1,
then the encoded key "k", then the encoded value 1 (for every
permutation-valid map-order oracle, since a singleton has a unique order),
and decoding those bytes into a settable mapping target reconstructs
exactly that one pair whatever the target's current entries. -/
theorem c7_singleton_map_round_trip
    (σ : List (List Nat) → List (List Nat)) (hσ : ∀ l, List.Perm (σ l) l) :
    EncodeValue σ (.vmap [(.vstr [107], .vint 64 1)]) =
      .ok [1, 0, 0, 0, 0, 0, 0, 0,
           1, 0, 0, 0, 0, 0, 0, 0, 107,
           1, 0, 0, 0, 0, 0, 0, 0] ∧
    ∀ cur : Val,
      Decode [1, 0, 0, 0, 0, 0, 0, 0,
              1, 0, 0, 0, 0, 0, 0, 0, 107,
              1, 0, 0, 0, 0, 0, 0, 0] (.tmap .tstr (.tint 64)) true cur =
        .ok (.vmap [(.vstr [107], .vint 64 1)], []) := by
  constructor
  · have hraw : EncodeValue σ (.vmap [(.vstr [107], .vint 64 1)]) =
        .ok (encLen8 1 ++
          (σ [[1, 0, 0, 0, 0, 0, 0, 0, 107, 1, 0, 0, 0, 0, 0, 0, 0]]).flatten) :=
      rfl
    have hs : σ [[1, 0, 0, 0, 0, 0, 0, 0, 107, 1, 0, 0, 0, 0, 0, 0, 0]] =
        [[1, 0, 0, 0, 0, 0, 0, 0, 107, 1, 0, 0, 0, 0, 0, 0, 0]] :=
      List.perm_singleton.mp (hσ _)
    rw [hraw, hs]
    rfl
  · intro cur
    rfl

/-- Witness for C7 with the identity oracle. -/
theorem c7_singleton_map_round_trip_witness :
    (∀ l : List (List Nat), List.Perm (id l) l) ∧
    (EncodeValue id (.vmap [(.vstr [107], .vint 64 1)]) =
      .ok [1, 0, 0, 0, 0, 0, 0, 0,
           1, 0, 0, 0, 0, 0, 0, 0, 107,
           1, 0, 0, 0, 0, 0, 0, 0] ∧
    ∀ cur : Val,
      Decode [1, 0, 0, 0, 0, 0, 0, 0,
              1, 0, 0, 0, 0, 0, 0, 0, 107,
              1, 0, 0, 0, 0, 0, 0, 0] (.tmap .tstr (.tint 64)) true cur =
        .ok (.vmap [(.vstr [107], .vint 64 1)], [])) :=
  ⟨fun l => List.Perm.refl l,
   c7_singleton_map_round_trip id (fun l => List.Perm.refl l)⟩

/-- C8: a string encodes as its 8-byte little-endian byte length followed
by its raw bytes with no terminator; in particular "ab" encodes to the 10
bytes 02 00 00 00 00 00 00 00 61 62. -/
theorem c8_string_encoding :
    (∀ (σ : List (List Nat) → List (List Nat)) (s : List Nat),
        EncodeValue σ (.vstr s) = .ok (encLen8 s.length ++ s)) ∧
    (∀ σ : List (List Nat) → List (List Nat),
        EncodeValue σ (.vstr [97, 98]) =
          .ok [2, 0, 0, 0, 0, 0, 0, 0, 97, 98]) :=
  ⟨fun _ _ => rfl, fun _ => rfl⟩

/-- C9: for values containing no mapping node, the encoder's output is
independent of the map-iteration oracle — the one source of
nondeterminism — so two encode calls yield byte-identical output. -/
theorem c9_encode_deterministic_no_maps
    (σ1 σ2 : List (List Nat) → List (List Nat)) (v : Val)
    (h : noMapping v = true) :
    EncodeValue σ1 v = EncodeValue σ2 v :=
  encNoMapV σ1 σ2 v h

/-- Witness for C9 at a map-free value, with two different oracles. -/
theorem c9_encode_deterministic_no_maps_witness :
    noMapping c9Val = true ∧
    EncodeValue id c9Val = EncodeValue (fun l => l.reverse) c9Val :=
  ⟨rfl, c9_encode_deterministic_no_maps id (fun l => l.reverse) c9Val rfl⟩

/-- C10: encoding returns a nil error for every value built exclusively
from the string, signed-integer, unsigned-integer, struct, slice, array
and map kinds, at any nesting depth and for every map-order oracle. -/
theorem c10_encode_no_error (σ : List (List Nat) → List (List Nat))
    (v : Val) (h : noOther v = true) :
    ∃ bs, Encode σ v = .ok bs :=
  encTotalV σ v h

/-- Witness for C10 at a deeply nested map-carrying value. -/
theorem c10_encode_no_error_witness :
    noOther c10Val = true ∧ ∃ bs, Encode id c10Val = .ok bs :=
  ⟨rfl, c10_encode_no_error id c10Val rfl⟩

end Gensenc
